import Mathlib

/-!
# Verification of the horcrux numeric kernels

A shallow embedding of the two algorithmic cores of the repository:

* the TP/SL barrier scan of `src/horcrux/tp_sl_pnl.py`
  (`calculate_single_exit_index_log`, the binary-tree build inside
  `calculate_exit_log_return`, and the per-entry log-return), and
* the incremental rolling OLS slope of `src/horcrux/rolling_linreg_slope.py`
  (`fast_linreg_slope`).

Embedding conventions:

* Python floats are modelled as rationals (`ℚ`).  The scan works entirely in
  log space: the log-price arrays and the log thresholds `tp_log`/`sl_log`
  are inputs, so they are arbitrary rationals here (for any `tp_frac > -1`
  the real code's `log(1 + tp_frac)` can be any real, and similarly for
  `sl_frac < 1`).
* A numpy float array of length `n` is modelled as a function `ℕ → ℚ`
  together with the explicit length; an access at an index `≥ n` is an
  out-of-bounds access (an `IndexError` under plain numpy, an unchecked
  read/write of foreign memory under `numba.njit`) and makes the modelled
  computation return `none`.
* A float cell that holds a non-finite value (the `np.nan` of an untouched
  slope cell, or the result of dividing by a zero denominator) is modelled
  as `none : Option ℚ`.
* `while` loops are modelled by structural recursion on an explicit fuel
  argument; the wrappers pass a fuel that is proved sufficient, and a `none`
  result means the loop either accessed memory out of bounds or ran out of
  fuel (the latter is proved impossible for the fuel used).
* The `np.nan` initialisation of the tree buffers is modelled by the junk
  value `0` in cells that are never read (only index `0` of each tree buffer
  remains unwritten, and the scan never reads index `0`).
-/

namespace Horcrux

/-! ## Barrier scan: `tp_sl_pnl.py` -/

/-- The comparison tolerance `epsilon = 1e-12` of `calculate_single_exit_index_log`. -/
def epsilon : ℚ := 1 / 1000000000000

/-- The barrier-crossing test `high > tp - epsilon or low < sl + epsilon`
(lines 25 and 45 of `tp_sl_pnl.py`). -/
def crossed (tp sl hi lo : ℚ) : Bool :=
  decide (tp - epsilon < hi) || decide (lo < sl + epsilon)

/-- The ascend phase of `calculate_single_exit_index_log` (the first `while True` loop,
lines 21-32).  `size` is the length of the tree buffers (`2*M`).
Returns `Sum.inl bt_midpoint` for the no-exit return at the right edge,
`Sum.inr current_index` when the loop breaks with a detected exit, and `none`
on an out-of-bounds buffer read (or fuel exhaustion, excluded for the fuel used). -/
def ascendLoop (hbt lbt : ℕ → ℚ) (size : ℕ) (tp sl : ℚ) : ℕ → ℕ → Option (ℕ ⊕ ℕ)
  | 0, _ => none
  | fuel + 1, cur =>
    if size ≤ cur then none
    else
      if crossed tp sl (hbt cur) (lbt cur) then some (Sum.inr cur)
      else if cur &&& (cur + 1) = 0 then some (Sum.inl (size >>> 1))
      else ascendLoop hbt lbt size tp sl fuel (if cur &&& 1 = 1 then cur + 1 else cur >>> 1)

/-- The descend phase of `calculate_single_exit_index_log` (the second `while True`
loop, lines 34-45).  Returns the exit index `current_index - bt_midpoint`. -/
def descendLoop (hbt lbt : ℕ → ℚ) (size : ℕ) (tp sl : ℚ) (mid : ℕ) : ℕ → ℕ → Option ℕ
  | 0, _ => none
  | fuel + 1, cur =>
    if mid < cur then some (cur - mid)
    else
      if size ≤ cur <<< 1 then none
      else
        descendLoop hbt lbt size tp sl mid fuel
          (if crossed tp sl (hbt (cur <<< 1)) (lbt (cur <<< 1)) then cur <<< 1 else cur <<< 1 + 1)

/-- Fuel for the ascend loop; proved sufficient below. -/
def ascendFuel (size : ℕ) : ℕ := size * size + size + 1

/-- Fuel for the descend loop; proved sufficient below. -/
def descendFuel (size : ℕ) : ℕ := size + 1

/-- Dispatch on how the ascend loop ended: the `return bt_midpoint` of line 30 is
passed through, while a detected-exit break enters the descend loop of lines 34-45. -/
def finishScan (hbt lbt : ℕ → ℚ) (size : ℕ) (tp sl : ℚ) (mid : ℕ) : ℕ ⊕ ℕ → Option ℕ
  | Sum.inl r => some r
  | Sum.inr cur => descendLoop hbt lbt size tp sl mid (descendFuel size) cur

/-- `calculate_single_exit_index_log(entry_index, close_log, high_log_bt, low_log_bt,
tp_log, sl_log)` with tree buffers of length `size`.  `none` models an
out-of-bounds buffer access. -/
def calculate_single_exit_index_log (close_log hbt lbt : ℕ → ℚ) (size : ℕ)
    (tp_log sl_log : ℚ) (entry_index : ℕ) : Option ℕ :=
  let tp := close_log entry_index + tp_log
  let sl := close_log entry_index + sl_log
  let bt_midpoint := size >>> 1
  (ascendLoop hbt lbt size tp sl (ascendFuel size) (entry_index + bt_midpoint + 1)).bind
    (finishScan hbt lbt size tp sl bt_midpoint)

/-- The tree buffer right after `high_log_bt[len:2*len] = high_log`:
leaves `[M, 2M)` hold the input values, everything else is the `np.nan`
placeholder (modelled as the junk value `0`; those cells are never read). -/
def initBT (M : ℕ) (leaf : ℕ → ℚ) : ℕ → ℚ :=
  fun i => if M ≤ i ∧ i < 2 * M then leaf (i - M) else 0

/-- The inner `for i in range(lo, lo + n): bt[i] = comb(bt[2*i], bt[2*i+1])` of the
tree build (lines 66-68 of `tp_sl_pnl.py`), as a left-to-right sequence of updates. -/
def fillRange (comb : ℚ → ℚ → ℚ) : (ℕ → ℚ) → ℕ → ℕ → (ℕ → ℚ)
  | b, _, 0 => b
  | b, lo, n + 1 =>
    fillRange comb (fun j => if j = lo then comb (b (2 * lo)) (b (2 * lo + 1)) else b j) (lo + 1) n

/-- The outer `while current_length != 0` build loop (lines 64-68):
halve `current_length` and fill `range(current_length, 2*current_length)`. -/
def buildLoop (comb : ℚ → ℚ → ℚ) (cl : ℕ) (b : ℕ → ℚ) : ℕ → ℚ :=
  if cl = 0 then b else buildLoop comb (cl / 2) (fillRange comb b (cl / 2) (cl / 2))
termination_by cl
decreasing_by omega

/-- The full bottom-up tree build of `calculate_exit_log_return` (lines 53-68) over a
leaf array of length `M`, for one combining function (`max` for highs, `min` for lows). -/
def buildBT (comb : ℚ → ℚ → ℚ) (M : ℕ) (leaf : ℕ → ℚ) : ℕ → ℚ :=
  buildLoop comb M (initBT M leaf)

/-- The semantic value of tree node `i`: leaves `[M, ∞)` hold the leaf values,
internal nodes combine their two children.  Used to state and prove properties of
`buildBT`; node `0` is unused and keeps the placeholder `0`. -/
def btVal (comb : ℚ → ℚ → ℚ) (M : ℕ) (leaf : ℕ → ℚ) (i : ℕ) : ℚ :=
  if M ≤ i then leaf (i - M)
  else if i = 0 then 0
  else comb (btVal comb M leaf (2 * i)) (btVal comb M leaf (2 * i + 1))
termination_by 2 * M - i
decreasing_by all_goals omega

/-- The per-entry body of `calculate_exit_log_return` (lines 73-76): run the scan over
the two built tree buffers, clamp the exit index to `N - 1`
(`min(exit_index, len(entries)-1)`) and return the realized log-return
`close_log[exit_index] - close_log[i]`. -/
def exitLogReturnEntry (close_log high_log low_log : ℕ → ℚ) (M N : ℕ)
    (tp_log sl_log : ℚ) (e : ℕ) : Option ℚ :=
  (calculate_single_exit_index_log close_log
      (buildBT (fun a b => max a b) M high_log) (buildBT (fun a b => min a b) M low_log)
      (2 * M) tp_log sl_log e).map
    (fun exit_index => close_log (min exit_index (N - 1)) - close_log e)

/-- Modelled from the spec: the brute-force linear forward scan.  Returns the smallest
index `j' ≥ j` with `j' < M` whose bar crosses a barrier, and `M` when none does. -/
def linearScanFrom (high_log low_log : ℕ → ℚ) (tp sl : ℚ) (M j : ℕ) : ℕ :=
  if h : j < M then
    if crossed tp sl (high_log j) (low_log j) then j
    else linearScanFrom high_log low_log tp sl M (j + 1)
  else M
termination_by M - j
decreasing_by omega

/-- Modelled from the spec: the exit index found by a brute-force linear forward scan
from entry `e` — the smallest `j > e` (below the padded length `M`) whose log-high
exceeds `tp - epsilon` or whose log-low undercuts `sl + epsilon`, and the sentinel `M`
when no such `j` exists. -/
def linearExitIndex (high_log low_log : ℕ → ℚ) (tp sl : ℚ) (e M : ℕ) : ℕ :=
  linearScanFrom high_log low_log tp sl M (e + 1)

/-! ## Rolling regression slope: `rolling_linreg_slope.py` -/

/-- Float division as it feeds a result cell: a zero denominator produces a non-finite
float (`0/0 = nan`, `c/0 = ±inf`), modelled as `none`. -/
def divNum (a b : ℚ) : Option ℚ := if b = 0 then none else some (a / b)

/-- `x_window.mean()` for `x_window = np.arange(window)`. -/
def xWindowMean (w : ℕ) : ℚ := (∑ j in Finset.range w, (j : ℚ)) / w

/-- `denom = np.sum((x_window - x_window.mean()) ** 2)` (line 30). -/
def linregDenom (w : ℕ) : ℚ := ∑ j in Finset.range w, ((j : ℚ) - xWindowMean w) ^ 2

/-- `x_mean[i]` for `x_mean = np.arange(N) - (window-1)/2` (line 33). -/
def xMean (w i : ℕ) : ℚ := (i : ℚ) - ((w : ℚ) - 1) / 2

/-- The body of one iteration of the update loop of `fast_linreg_slope`
(lines 42-46): `dy_i = y[i+1] - y[i-window+1]`, the updated running mean
`y_i_mean + dy_i/window`, and the updated cross term `c_i`; returns the pair
(new mean, new cross term).  The new mean is written out in place of `dy_i`
and `y_mean'` to keep the definition let-free. -/
def linregStep (y : ℕ → ℚ) (w i : ℕ) (y_i_mean c_i : ℚ) : ℚ × ℚ :=
  (y_i_mean + (y (i + 1) - y (i + 1 - w)) / (w : ℚ),
   c_i + (y (i + 1) - y (i + 1 - w))
     + (((i + 1 : ℕ) : ℚ) - xMean w (i + 1)) *
        (y (i + 1) - (y_i_mean + (y (i + 1) - y (i + 1 - w)) / (w : ℚ)))
     - (((i + 1 - w : ℕ) : ℚ) - xMean w (i + 1)) *
        (y (i + 1 - w) - (y_i_mean + (y (i + 1) - y (i + 1 - w)) / (w : ℚ))))

/-- The update loop `for i in range(window-1, N-1)` of `fast_linreg_slope`
(lines 41-47), iterated `n` times starting at position `i`.  The slope array is a
function to `Option ℚ` (`none` = `np.nan` / non-finite). -/
def linregLoop (y : ℕ → ℚ) (w : ℕ) (denom : ℚ) :
    ℕ → ℕ → ℚ → ℚ → (ℕ → Option ℚ) → (ℕ → Option ℚ)
  | 0, _, _, _, slope => slope
  | n + 1, i, y_i_mean, c_i, slope =>
    linregLoop y w denom n (i + 1)
      (linregStep y w i y_i_mean c_i).1 (linregStep y w i y_i_mean c_i).2
      (fun t => if t = i + 1 then divNum (linregStep y w i y_i_mean c_i).2 denom else slope t)

/-- `fast_linreg_slope(y, window)` over an array of length `N`, for `window ≥ 1`.
The result is `none` when the computation accesses an array out of bounds: for
`window - 1 ≥ N` the read `x_mean[window-1]` and the write `slope[window-1]` are out
of bounds (and the product of the length-`window` and length-`min(window, N)` factors
of `c_i` cannot broadcast), an error under numpy semantics and an unchecked
out-of-bounds memory access under `numba.njit`.  Otherwise the returned slope array
has `none` (`np.nan`) in every never-written cell. -/
def fast_linreg_slope (y : ℕ → ℚ) (N w : ℕ) : Option (ℕ → Option ℚ) :=
  let denom := linregDenom w
  let y_i_mean := (∑ j in Finset.range (min w N), y j) / ((min w N : ℕ) : ℚ)
  if w - 1 < N then
    let c_i := ∑ j in Finset.range w, ((j : ℚ) - xMean w (w - 1)) * (y j - y_i_mean)
    some (linregLoop y w denom ((N - 1) - (w - 1)) (w - 1) y_i_mean c_i
      (fun t => if t = w - 1 then divNum c_i denom else none))
  else none

/-- The direct ordinary-least-squares slope of the window ending at position `i`:
x-coordinates `0 .. w-1`, y-values `y (i-w+1) .. y i`, per the claim's wording. -/
def olsSlope (y : ℕ → ℚ) (w i : ℕ) : ℚ :=
  (∑ k in Finset.range w, ((k : ℚ) - ((w : ℚ) - 1) / 2) *
      (y (i + 1 - w + k) - (∑ m in Finset.range w, y (i + 1 - w + m)) / w)) /
    (∑ k in Finset.range w, ((k : ℚ) - ((w : ℚ) - 1) / 2) ^ 2)

/-- The sum of the window of `w` values starting at `s`. -/
def winSum (y : ℕ → ℚ) (w s : ℕ) : ℚ := ∑ j in Finset.range w, y (s + j)

/-- The mean of the window of `w` values starting at `s`. -/
def winMean (y : ℕ → ℚ) (w s : ℕ) : ℚ := winSum y w s / w

/-- The OLS cross term of the window starting at `s`:
`Σ (x_j - x̄)(y_j - ȳ)` with `x = 0 .. w-1`. -/
def winCov (y : ℕ → ℚ) (w s : ℕ) : ℚ :=
  ∑ j in Finset.range w, ((j : ℚ) - ((w : ℚ) - 1) / 2) * (y (s + j) - winMean y w s)

/-- The centered first-moment form of the cross term: `Σ (x_j - x̄) y_j`. -/
def winP (y : ℕ → ℚ) (w s : ℕ) : ℚ :=
  ∑ j in Finset.range w, ((j : ℚ) - ((w : ℚ) - 1) / 2) * y (s + j)

/-! ## Rolling-slope lemmas -/

lemma sum_range_cast (w : ℕ) : (∑ j in Finset.range w, (j : ℚ)) = w * ((w : ℚ) - 1) / 2 := by
  induction w with
  | zero => simp
  | succ n ih =>
    rw [Finset.sum_range_succ, ih]
    push_cast
    ring

lemma xWindowMean_eq (w : ℕ) (hw : 1 ≤ w) : xWindowMean w = ((w : ℚ) - 1) / 2 := by
  have hw0 : (w : ℚ) ≠ 0 := by
    have : 0 < w := hw
    exact_mod_cast this.ne'
  unfold xWindowMean
  rw [sum_range_cast]
  field_simp
  ring

lemma linregDenom_eq (w : ℕ) (hw : 1 ≤ w) :
    linregDenom w = ∑ j in Finset.range w, ((j : ℚ) - ((w : ℚ) - 1) / 2) ^ 2 := by
  unfold linregDenom
  rw [xWindowMean_eq w hw]

lemma linregDenom_pos (w : ℕ) (hw : 2 ≤ w) : 0 < linregDenom w := by
  rw [linregDenom_eq w (le_trans one_le_two hw)]
  have hw2 : (2 : ℚ) ≤ (w : ℚ) := by exact_mod_cast hw
  apply Finset.sum_pos'
  · intro j _
    positivity
  · refine ⟨0, Finset.mem_range.mpr (by omega), ?_⟩
    have hne : ((0 : ℕ) : ℚ) - ((w : ℚ) - 1) / 2 ≠ 0 := by
      push_cast
      intro h
      linarith
    exact pow_two_pos_of_ne_zero hne

lemma linregDenom_one : linregDenom 1 = 0 := by
  unfold linregDenom xWindowMean
  simp

lemma sum_xdev_zero (w : ℕ) :
    (∑ j in Finset.range w, ((j : ℚ) - ((w : ℚ) - 1) / 2)) = (w : ℚ) * ((w : ℚ) - 1) / 2 - w * (((w : ℚ) - 1) / 2) := by
  rw [Finset.sum_sub_distrib, sum_range_cast, Finset.sum_const, Finset.card_range, nsmul_eq_mul]

lemma winCov_eq_winP (y : ℕ → ℚ) (w s : ℕ) : winCov y w s = winP y w s := by
  unfold winCov winP
  have h : ∀ j ∈ Finset.range w,
      ((j : ℚ) - ((w : ℚ) - 1) / 2) * (y (s + j) - winMean y w s)
        = ((j : ℚ) - ((w : ℚ) - 1) / 2) * y (s + j)
          - ((j : ℚ) - ((w : ℚ) - 1) / 2) * winMean y w s := by
    intro j _
    ring
  rw [Finset.sum_congr rfl h, Finset.sum_sub_distrib, ← Finset.sum_mul, sum_xdev_zero]
  ring

lemma winSum_succ (y : ℕ → ℚ) (w s : ℕ) :
    winSum y w (s + 1) = winSum y w s + y (s + w) - y s := by
  unfold winSum
  have h1 : (∑ j in Finset.range (w + 1), y (s + j)) = (∑ j in Finset.range w, y (s + j)) + y (s + w) :=
    Finset.sum_range_succ _ _
  have h2 : (∑ j in Finset.range (w + 1), y (s + j)) = (∑ j in Finset.range w, y (s + (j + 1))) + y (s + 0) :=
    Finset.sum_range_succ' _ _
  have h3 : (∑ j in Finset.range w, y (s + 1 + j)) = ∑ j in Finset.range w, y (s + (j + 1)) := by
    refine Finset.sum_congr rfl fun j _ => ?_
    rw [show s + 1 + j = s + (j + 1) from by omega]
  rw [h3]
  have h4 : s + 0 = s := by omega
  rw [h4] at h2
  linarith

lemma winP_succ (y : ℕ → ℚ) (w s : ℕ) :
    winP y w (s + 1)
      = winP y w s + ((w : ℚ) - 1) / 2 * y s + ((w : ℚ) - ((w : ℚ) - 1) / 2) * y (s + w)
        - (winSum y w s + y (s + w) - y s) := by
  unfold winP
  have h1 : (∑ j in Finset.range w, ((j : ℚ) - ((w : ℚ) - 1) / 2) * y (s + 1 + j))
      = (∑ j in Finset.range w, (((j : ℚ) + 1 - ((w : ℚ) - 1) / 2) * y (s + (j + 1))
          - y (s + (j + 1)))) := by
    refine Finset.sum_congr rfl fun j _ => ?_
    rw [show s + 1 + j = s + (j + 1) from by omega]
    ring
  have h2 : (∑ j in Finset.range (w + 1), ((j : ℚ) - ((w : ℚ) - 1) / 2) * y (s + j))
      = (∑ j in Finset.range w, (((j + 1 : ℕ) : ℚ) - ((w : ℚ) - 1) / 2) * y (s + (j + 1)))
        + (((0 : ℕ) : ℚ) - ((w : ℚ) - 1) / 2) * y (s + 0) :=
    Finset.sum_range_succ' _ _
  have h3 : (∑ j in Finset.range (w + 1), ((j : ℚ) - ((w : ℚ) - 1) / 2) * y (s + j))
      = (∑ j in Finset.range w, ((j : ℚ) - ((w : ℚ) - 1) / 2) * y (s + j))
        + (((w : ℕ) : ℚ) - ((w : ℚ) - 1) / 2) * y (s + w) :=
    Finset.sum_range_succ _ _
  have h4 : (∑ j in Finset.range w, (((j + 1 : ℕ) : ℚ) - ((w : ℚ) - 1) / 2) * y (s + (j + 1)))
      = ∑ j in Finset.range w, (((j : ℚ) + 1 - ((w : ℚ) - 1) / 2) * y (s + (j + 1))) := by
    refine Finset.sum_congr rfl fun j _ => ?_
    push_cast
    ring
  have h5 : (∑ j in Finset.range w, y (s + 1 + j)) = winSum y w s + y (s + w) - y s := by
    have := winSum_succ y w s
    unfold winSum at this
    have h6 : (∑ j in Finset.range w, y (s + 1 + j)) = ∑ j in Finset.range w, y ((s + 1) + j) := rfl
    rw [h6, this]
    unfold winSum
    rfl
  rw [h1, Finset.sum_sub_distrib]
  have h7 : (∑ j in Finset.range w, y (s + (j + 1))) = ∑ j in Finset.range w, y (s + 1 + j) := by
    refine Finset.sum_congr rfl fun j _ => ?_
    rw [show s + 1 + j = s + (j + 1) from by omega]
  rw [h7, h5]
  have h8 : (∑ j in Finset.range w, (((j : ℚ) + 1 - ((w : ℚ) - 1) / 2) * y (s + (j + 1))))
      = (∑ j in Finset.range w, ((j : ℚ) - ((w : ℚ) - 1) / 2) * y (s + j))
        + (((w : ℕ) : ℚ) - ((w : ℚ) - 1) / 2) * y (s + w)
        - (((0 : ℕ) : ℚ) - ((w : ℚ) - 1) / 2) * y (s + 0) := by
    rw [← h4]
    have := h2.symm.trans h3
    linarith
  rw [h8]
  push_cast
  have h9 : s + 0 = s := by omega
  rw [h9]
  ring

lemma winMean_step (y : ℕ → ℚ) (w s : ℕ) :
    winMean y w s + (y (s + w) - y s) / (w : ℚ) = winMean y w (s + 1) := by
  unfold winMean
  rw [winSum_succ]
  ring

lemma winCov_step (y : ℕ → ℚ) (w s : ℕ) (hw : 1 ≤ w) :
    winCov y w s + (y (s + w) - y s)
      + (((s + w : ℕ) : ℚ) - xMean w (s + w)) * (y (s + w) - winMean y w (s + 1))
      - (((s : ℕ) : ℚ) - xMean w (s + w)) * (y s - winMean y w (s + 1))
    = winCov y w (s + 1) := by
  have hw0 : (w : ℚ) ≠ 0 := by
    have : 0 < w := hw
    exact_mod_cast this.ne'
  have hm : winMean y w (s + 1) = (winSum y w s + y (s + w) - y s) / (w : ℚ) := by
    unfold winMean
    rw [winSum_succ]
  rw [winCov_eq_winP, winCov_eq_winP, winP_succ, hm]
  unfold xMean
  push_cast
  field_simp
  ring

lemma linregStep_spec (y : ℕ → ℚ) (w s : ℕ) (hw : 1 ≤ w) :
    linregStep y w (w - 1 + s) (winMean y w s) (winCov y w s)
      = (winMean y w (s + 1), winCov y w (s + 1)) := by
  unfold linregStep
  simp only [show w - 1 + s + 1 = s + w from by omega, show s + w - w = s from by omega]
  rw [winMean_step y w s]
  rw [Prod.mk.injEq]
  exact ⟨rfl, winCov_step y w s hw⟩

lemma linregLoop_spec (y : ℕ → ℚ) (w : ℕ) (hw : 1 ≤ w) (denom : ℚ) :
    ∀ n s slope, linregLoop y w denom n (w - 1 + s) (winMean y w s) (winCov y w s) slope
      = fun t => if w - 1 + s < t ∧ t ≤ w - 1 + s + n
          then divNum (winCov y w (t - (w - 1))) denom else slope t := by
  intro n
  induction n with
  | zero =>
    intro s slope
    funext t
    simp only [linregLoop]
    have h : ¬(w - 1 + s < t ∧ t ≤ w - 1 + s + 0) := by omega
    rw [if_neg h]
  | succ n ih =>
    intro s slope
    simp only [linregLoop, linregStep_spec y w s hw]
    rw [show w - 1 + s + 1 = w - 1 + (s + 1) from by omega, ih (s + 1)]
    funext t
    by_cases h1 : t = w - 1 + (s + 1)
    · have hin : ¬(w - 1 + (s + 1) < t ∧ t ≤ w - 1 + (s + 1) + n) := by omega
      have hout : w - 1 + s < t ∧ t ≤ w - 1 + s + (n + 1) := by omega
      rw [if_neg hin, if_pos hout, if_pos h1]
      have ht : t - (w - 1) = s + 1 := by omega
      rw [ht]
    · by_cases h2 : w - 1 + (s + 1) < t ∧ t ≤ w - 1 + (s + 1) + n
      · have hout : w - 1 + s < t ∧ t ≤ w - 1 + s + (n + 1) := by omega
        rw [if_pos h2, if_pos hout]
      · have hout : ¬(w - 1 + s < t ∧ t ≤ w - 1 + s + (n + 1)) := by omega
        rw [if_neg h2, if_neg hout, if_neg h1]

lemma fast_linreg_slope_eq (y : ℕ → ℚ) (N w : ℕ) (h2 : 1 ≤ w) (hN : w ≤ N) :
    fast_linreg_slope y N w
      = some (fun t => if w - 1 ≤ t ∧ t ≤ N - 1
          then divNum (winCov y w (t - (w - 1))) (linregDenom w) else none) := by
  have hg : w - 1 < N := by omega
  have hmin : min w N = w := min_eq_left hN
  simp only [fast_linreg_slope]
  rw [if_pos hg, hmin]
  have hmean : (∑ j in Finset.range w, y j) / ((w : ℕ) : ℚ) = winMean y w 0 := by
    unfold winMean winSum
    have h : (∑ j in Finset.range w, y j) = ∑ j in Finset.range w, y (0 + j) := by
      refine Finset.sum_congr rfl fun j _ => ?_
      rw [Nat.zero_add]
    rw [h]
  have hcov : (∑ j in Finset.range w, ((j : ℚ) - xMean w (w - 1)) * (y j - winMean y w 0))
      = winCov y w 0 := by
    unfold winCov
    refine Finset.sum_congr rfl fun j _ => ?_
    have hx : xMean w (w - 1) = ((w : ℚ) - 1) / 2 := by
      unfold xMean
      have hc : ((w - 1 : ℕ) : ℚ) = (w : ℚ) - 1 := by
        push_cast [h2]
        ring
      rw [hc]
      ring
    rw [hx, Nat.zero_add]
  rw [hmean, hcov]
  have hloop := linregLoop_spec y w h2 (linregDenom w) ((N - 1) - (w - 1)) 0
    (fun t => if t = w - 1 then divNum (winCov y w 0) (linregDenom w) else none)
  have hidx : w - 1 + 0 = w - 1 := by omega
  rw [hidx] at hloop
  rw [hloop]
  refine congrArg some ?_
  funext t
  by_cases ha : t = w - 1
  · have h1 : ¬(w - 1 < t ∧ t ≤ w - 1 + (N - 1 - (w - 1))) := by omega
    have hb : w - 1 ≤ t ∧ t ≤ N - 1 := by omega
    rw [if_neg h1, if_pos ha, if_pos hb]
    have ht : t - (w - 1) = 0 := by omega
    rw [ht]
  · by_cases hc : w - 1 < t ∧ t ≤ w - 1 + (N - 1 - (w - 1))
    · have hb : w - 1 ≤ t ∧ t ≤ N - 1 := by omega
      rw [if_pos hc, if_pos hb]
    · have hb : ¬(w - 1 ≤ t ∧ t ≤ N - 1) := by omega
      rw [if_neg hc, if_neg ha, if_neg hb]

lemma linregLoop_none (y : ℕ → ℚ) (w : ℕ) :
    ∀ n i ym c slope, (∀ t, slope t = none) →
      ∀ t, linregLoop y w 0 n i ym c slope t = none := by
  intro n
  induction n with
  | zero =>
    intro i ym c slope hs t
    exact hs t
  | succ n ih =>
    intro i ym c slope hs t
    simp only [linregLoop]
    refine ih _ _ _ _ (fun u => ?_) t
    by_cases hu : u = i + 1
    · rw [if_pos hu]
      unfold divNum
      rw [if_pos rfl]
    · rw [if_neg hu]
      exact hs u

/-! ## Claims C2, C4, C5, C9: the rolling-slope engine -/

/-- C2: for every array `y` of length `N` and window `2 ≤ window ≤ N`, at every
position `window-1 ≤ i ≤ N-1` the incrementally updated `slope[i]` returned by
`fast_linreg_slope` equals the slope of a direct OLS fit to the window's points
(`x = 0..window-1`, `y[i-window+1..i]`) — exactly, in exact rational arithmetic. -/
theorem C2_rolling_slope_matches_direct_ols (y : ℕ → ℚ) (N w i : ℕ)
    (hw : 2 ≤ w) (hN : w ≤ N) (hi1 : w - 1 ≤ i) (hi2 : i ≤ N - 1) :
    ∃ arr, fast_linreg_slope y N w = some arr ∧ arr i = some (olsSlope y w i) := by
  refine ⟨_, fast_linreg_slope_eq y N w (by omega) hN, ?_⟩
  rw [if_pos ⟨hi1, hi2⟩]
  unfold divNum
  rw [if_neg (linregDenom_pos w hw).ne']
  congr 1
  unfold olsSlope
  rw [show i + 1 - w = i - (w - 1) from by omega, ← linregDenom_eq w (by omega)]
  unfold winCov winMean winSum
  rfl

/-- Witness for C2 at `y t = t`, `N = 3`, `window = 2`, position `i = 2`. -/
theorem C2_rolling_slope_matches_direct_ols_witness :
    ∃ arr, fast_linreg_slope (fun t => (t : ℚ)) 3 2 = some arr
      ∧ arr 2 = some (olsSlope (fun t => (t : ℚ)) 2 2) :=
  C2_rolling_slope_matches_direct_ols (fun t => (t : ℚ)) 3 2 2
    (by decide) (by decide) (by decide) (by decide)

/-- C4 (code bug): for `window > N` the code does not return an all-NaN array:
the read `x_mean[window-1]` and the write `slope[window-1]` are out of bounds
(here at `N = 1`, `window = 2`), so the modelled computation aborts with `none`. -/
theorem C4_window_gt_N_out_of_bounds :
    fast_linreg_slope (fun _ => (0 : ℚ)) 1 2 = none := rfl

/-- C5 counterexample: `window = 1 < 2` is not surfaced as a configuration error —
the function returns an output array. -/
theorem C5_counterexample_window_one_returns :
    ∃ arr, fast_linreg_slope (fun _ => (0 : ℚ)) 2 1 = some arr := ⟨_, rfl⟩

/-- C5 amended: `window < 2` is not validated.  For `window = 1` (and any `N ≥ 1`)
`fast_linreg_slope` returns normally, and every entry of the returned array is
non-finite (the denominator `Σ(x - x̄)²` is `0`, so every written cell is `0/0` or
`c/0`), rather than raising a configuration error. -/
theorem C5_window_one_returns_all_nonfinite (y : ℕ → ℚ) (N : ℕ) (hN : 1 ≤ N) :
    ∃ arr, fast_linreg_slope y N 1 = some arr ∧ ∀ t, arr t = none := by
  simp only [fast_linreg_slope]
  rw [if_pos (show 1 - 1 < N from by omega)]
  refine ⟨_, rfl, ?_⟩
  intro t
  rw [linregDenom_one]
  refine linregLoop_none y 1 _ _ _ _ _ (fun u => ?_) t
  by_cases hu : u = 1 - 1
  · rw [if_pos hu]
    unfold divNum
    rw [if_pos rfl]
  · rw [if_neg hu]

/-- Witness for the amended C5 at `N = 1`, constant `y`. -/
theorem C5_window_one_returns_all_nonfinite_witness :
    ∃ arr, fast_linreg_slope (fun _ => (5 : ℚ)) 1 1 = some arr ∧ ∀ t, arr t = none :=
  C5_window_one_returns_all_nonfinite (fun _ => (5 : ℚ)) 1 (by decide)

/-- C9: for `2 ≤ window ≤ N`, the returned slope array has an undefined (NaN)
value at every position `i ≤ window - 2` and a numeric (non-NaN) value at every
position `window - 1 ≤ i ≤ N - 1`. -/
theorem C9_nan_head_numeric_tail (y : ℕ → ℚ) (N w : ℕ) (hw : 2 ≤ w) (hN : w ≤ N) :
    ∃ arr, fast_linreg_slope y N w = some arr
      ∧ (∀ i, i + 2 ≤ w → arr i = none)
      ∧ (∀ i, w - 1 ≤ i → i < N → ∃ q, arr i = some q) := by
  refine ⟨_, fast_linreg_slope_eq y N w (by omega) hN, fun i hi => ?_, fun i h1 h2 => ?_⟩
  · rw [if_neg (by omega)]
  · rw [if_pos ⟨h1, by omega⟩]
    unfold divNum
    rw [if_neg (linregDenom_pos w hw).ne']
    exact ⟨_, rfl⟩

/-- Witness for C9 at `y t = t`, `N = 3`, `window = 3`. -/
theorem C9_nan_head_numeric_tail_witness :
    ∃ arr, fast_linreg_slope (fun t => (t : ℚ)) 3 3 = some arr
      ∧ (∀ i, i + 2 ≤ 3 → arr i = none)
      ∧ (∀ i, 3 - 1 ≤ i → i < 3 → ∃ q, arr i = some q) :=
  C9_nan_head_numeric_tail (fun t => (t : ℚ)) 3 3 (by decide) (by decide)

/-! ## Tree-build lemmas -/

lemma btVal_leaf (comb : ℚ → ℚ → ℚ) (M : ℕ) (leaf : ℕ → ℚ) (i : ℕ) (h : M ≤ i) :
    btVal comb M leaf i = leaf (i - M) := by
  unfold btVal
  rw [if_pos h]

lemma btVal_node (comb : ℚ → ℚ → ℚ) (M : ℕ) (leaf : ℕ → ℚ) (i : ℕ)
    (h1 : 1 ≤ i) (h2 : i < M) :
    btVal comb M leaf i = comb (btVal comb M leaf (2 * i)) (btVal comb M leaf (2 * i + 1)) := by
  conv_lhs => rw [btVal]
  rw [if_neg (by omega), if_neg (by omega)]

lemma fillRange_spec (comb : ℚ → ℚ → ℚ) :
    ∀ n b lo, fillRange comb b lo n
      = fun j => if lo ≤ j ∧ j < lo + n then comb (b (2 * j)) (b (2 * j + 1)) else b j := by
  intro n
  induction n with
  | zero =>
    intro b lo
    funext j
    simp only [fillRange]
    rw [if_neg (by omega)]
  | succ n ih =>
    intro b lo
    simp only [fillRange]
    rw [ih]
    funext j
    beta_reduce
    by_cases h1 : lo + 1 ≤ j ∧ j < lo + 1 + n
    · rw [if_pos h1, if_pos (show lo ≤ j ∧ j < lo + (n + 1) from by omega)]
      rw [if_neg (show ¬(2 * j = lo) from by omega), if_neg (show ¬(2 * j + 1 = lo) from by omega)]
    · rw [if_neg h1]
      by_cases h2 : j = lo
      · rw [if_pos h2, if_pos (show lo ≤ j ∧ j < lo + (n + 1) from by omega)]
        subst h2
        rfl
      · rw [if_neg h2, if_neg (show ¬(lo ≤ j ∧ j < lo + (n + 1)) from by omega)]

lemma buildLoop_spec (comb : ℚ → ℚ → ℚ) (M : ℕ) (leaf : ℕ → ℚ) :
    ∀ t b, 2 ^ t ≤ M →
      (∀ i, 2 ^ t ≤ i → i < 2 * M → b i = btVal comb M leaf i) →
      ∀ i, 1 ≤ i → i < 2 * M → buildLoop comb (2 ^ t) b i = btVal comb M leaf i := by
  intro t
  induction t with
  | zero =>
    intro b _ hb i h1 h2
    unfold buildLoop
    rw [if_neg (by omega : ¬(2 ^ 0 = 0))]
    have hd : 2 ^ 0 / 2 = 0 := by decide
    rw [hd]
    unfold buildLoop
    rw [if_pos rfl]
    simp only [fillRange]
    exact hb i (by omega) h2
  | succ t ih =>
    intro b hM hb i h1 h2
    unfold buildLoop
    rw [if_neg (by positivity : ¬(2 ^ (t + 1) = 0))]
    have hd : 2 ^ (t + 1) / 2 = 2 ^ t := by
      rw [pow_succ]
      omega
    rw [hd]
    refine ih (fillRange comb b (2 ^ t) (2 ^ t)) (by omega) ?_ i h1 h2
    intro j hj hj2
    rw [fillRange_spec]
    simp only []
    by_cases h : 2 ^ t ≤ j ∧ j < 2 ^ t + 2 ^ t
    · rw [if_pos h]
      have hjM : j < M := by
        have : 2 ^ t + 2 ^ t = 2 ^ (t + 1) := by
          rw [pow_succ]
          omega
        omega
      rw [hb (2 * j) (by omega) (by omega), hb (2 * j + 1) (by omega) (by omega)]
      exact (btVal_node comb M leaf j (by omega) hjM).symm
    · rw [if_neg h]
      exact hb j (by omega) hj2

lemma buildBT_eq_btVal (comb : ℚ → ℚ → ℚ) (M k : ℕ) (leaf : ℕ → ℚ) (hM : M = 2 ^ k)
    (i : ℕ) (h1 : 1 ≤ i) (h2 : i < 2 * M) :
    buildBT comb M leaf i = btVal comb M leaf i := by
  unfold buildBT
  subst hM
  refine buildLoop_spec comb _ leaf k (initBT _ leaf) le_rfl ?_ i h1 h2
  intro j hj hj2
  unfold initBT
  rw [if_pos ⟨hj, hj2⟩]
  exact (btVal_leaf comb _ leaf j hj).symm

lemma buildLoop_zero_cell (comb : ℚ → ℚ → ℚ) :
    ∀ cl b, buildLoop comb cl b 0 = b 0 := by
  intro cl
  induction cl using Nat.strong_induction_on with
  | _ cl ih =>
    intro b
    unfold buildLoop
    by_cases h : cl = 0
    · rw [if_pos h]
    · rw [if_neg h]
      rw [ih (cl / 2) (by omega)]
      rw [fillRange_spec]
      simp only []
      rw [if_neg (by omega)]

lemma buildBT_zero_cell (comb : ℚ → ℚ → ℚ) (M : ℕ) (leaf : ℕ → ℚ) (hM : 1 ≤ M) :
    buildBT comb M leaf 0 = 0 := by
  unfold buildBT
  rw [buildLoop_zero_cell]
  unfold initBT
  rw [if_neg (by omega)]

/-! ## Claim C7: the tree invariant after the bottom-up build -/

/-- C7: after the bottom-up build over log-high and log-low arrays of power-of-two
length `M`, the two size-`2M` tree buffers satisfy, for every internal index
`1 ≤ i < M`, `high_log_bt[i] = max(high_log_bt[2i], high_log_bt[2i+1])` and
`low_log_bt[i] = min(low_log_bt[2i], low_log_bt[2i+1])`; the leaves `[M, 2M)`
hold the input log values, and index `0` is unused (it keeps its initialisation
placeholder). -/
theorem C7_tree_build_invariant (M k : ℕ) (hM : M = 2 ^ k) (high_log low_log : ℕ → ℚ) :
    (∀ i, 1 ≤ i → i < M →
        buildBT (fun a b => max a b) M high_log i
          = max (buildBT (fun a b => max a b) M high_log (2 * i))
              (buildBT (fun a b => max a b) M high_log (2 * i + 1))
        ∧ buildBT (fun a b => min a b) M low_log i
          = min (buildBT (fun a b => min a b) M low_log (2 * i))
              (buildBT (fun a b => min a b) M low_log (2 * i + 1)))
    ∧ (∀ i, M ≤ i → i < 2 * M →
        buildBT (fun a b => max a b) M high_log i = high_log (i - M)
        ∧ buildBT (fun a b => min a b) M low_log i = low_log (i - M))
    ∧ buildBT (fun a b => max a b) M high_log 0 = 0
    ∧ buildBT (fun a b => min a b) M low_log 0 = 0 := by
  have hM1 : 1 ≤ M := by
    subst hM
    exact Nat.one_le_two_pow
  refine ⟨fun i h1 h2 => ⟨?_, ?_⟩, fun i h1 h2 => ⟨?_, ?_⟩, ?_, ?_⟩
  · rw [buildBT_eq_btVal _ M k _ hM i h1 (by omega),
      buildBT_eq_btVal _ M k _ hM (2 * i) (by omega) (by omega),
      buildBT_eq_btVal _ M k _ hM (2 * i + 1) (by omega) (by omega)]
    exact btVal_node _ M high_log i h1 h2
  · rw [buildBT_eq_btVal _ M k _ hM i h1 (by omega),
      buildBT_eq_btVal _ M k _ hM (2 * i) (by omega) (by omega),
      buildBT_eq_btVal _ M k _ hM (2 * i + 1) (by omega) (by omega)]
    exact btVal_node _ M low_log i h1 h2
  · rw [buildBT_eq_btVal _ M k _ hM i (by omega) h2]
    exact btVal_leaf _ M high_log i h1
  · rw [buildBT_eq_btVal _ M k _ hM i (by omega) h2]
    exact btVal_leaf _ M low_log i h1
  · exact buildBT_zero_cell _ M high_log hM1
  · exact buildBT_zero_cell _ M low_log hM1

/-- Witness for C7 at `M = 2` over concrete two-element leaf arrays. -/
theorem C7_tree_build_invariant_witness :
    (∀ i, 1 ≤ i → i < 2 →
        buildBT (fun a b => max a b) 2 (fun j : ℕ => (j : ℚ)) i
          = max (buildBT (fun a b => max a b) 2 (fun j : ℕ => (j : ℚ)) (2 * i))
              (buildBT (fun a b => max a b) 2 (fun j : ℕ => (j : ℚ)) (2 * i + 1))
        ∧ buildBT (fun a b => min a b) 2 (fun j : ℕ => -(j : ℚ)) i
          = min (buildBT (fun a b => min a b) 2 (fun j : ℕ => -(j : ℚ)) (2 * i))
              (buildBT (fun a b => min a b) 2 (fun j : ℕ => -(j : ℚ)) (2 * i + 1)))
    ∧ (∀ i, 2 ≤ i → i < 2 * 2 →
        buildBT (fun a b => max a b) 2 (fun j : ℕ => (j : ℚ)) i = ((i - 2 : ℕ) : ℚ)
        ∧ buildBT (fun a b => min a b) 2 (fun j : ℕ => -(j : ℚ)) i = -((i - 2 : ℕ) : ℚ))
    ∧ buildBT (fun a b => max a b) 2 (fun j : ℕ => (j : ℚ)) 0 = 0
    ∧ buildBT (fun a b => min a b) 2 (fun j : ℕ => -(j : ℚ)) 0 = 0 :=
  C7_tree_build_invariant 2 1 (by decide) (fun j : ℕ => (j : ℚ)) (fun j : ℕ => -(j : ℚ))

/-! ## Bit lemmas for the right-edge test `current_index & (current_index + 1) == 0` -/

lemma two_mul_land_succ (a : ℕ) : (2 * a) &&& (2 * a + 1) = 2 * a := by
  refine Nat.eq_of_testBit_eq fun i => ?_
  rw [Nat.testBit_land]
  cases i with
  | zero =>
    have h1 : (2 * a).testBit 0 = false := by
      rw [Nat.testBit_zero, show 2 * a % 2 = 0 from by omega]
      rfl
    rw [h1, Bool.false_and]
  | succ i =>
    simp only [Nat.testBit_succ]
    rw [show 2 * a / 2 = a from by omega, show (2 * a + 1) / 2 = a from by omega]
    exact Bool.and_self _

lemma odd_land_two_mul (a b : ℕ) : (2 * a + 1) &&& (2 * b) = 2 * (a &&& b) := by
  refine Nat.eq_of_testBit_eq fun i => ?_
  rw [Nat.testBit_land]
  cases i with
  | zero =>
    have h1 : (2 * b).testBit 0 = false := by
      rw [Nat.testBit_zero, show 2 * b % 2 = 0 from by omega]
      rfl
    have h2 : (2 * (a &&& b)).testBit 0 = false := by
      rw [Nat.testBit_zero, show 2 * (a &&& b) % 2 = 0 from by omega]
      rfl
    rw [h1, h2, Bool.and_false]
  | succ i =>
    simp only [Nat.testBit_succ]
    rw [show (2 * a + 1) / 2 = a from by omega, show 2 * b / 2 = b from by omega,
      show 2 * (a &&& b) / 2 = a &&& b from by omega]
    rw [Nat.testBit_land]

lemma land_succ_self_eq_zero_iff (n : ℕ) : n &&& (n + 1) = 0 ↔ ∃ t, n + 1 = 2 ^ t := by
  constructor
  · intro h
    induction n using Nat.strong_induction_on with
    | _ n ih =>
      rcases Nat.even_or_odd n with ⟨a, ha⟩ | ⟨a, ha⟩
      · rcases Nat.eq_zero_or_pos a with ha0 | hapos
        · exact ⟨0, by omega⟩
        · exfalso
          rw [show n = 2 * a from by omega, two_mul_land_succ] at h
          omega
      · rw [show n = 2 * a + 1 from by omega, show 2 * a + 1 + 1 = 2 * (a + 1) from by omega,
          odd_land_two_mul] at h
        have h0 : a &&& (a + 1) = 0 := by omega
        obtain ⟨t, ht⟩ := ih a (by omega) h0
        exact ⟨t + 1, by rw [pow_succ]; omega⟩
  · rintro ⟨t, ht⟩
    refine Nat.eq_of_testBit_eq fun i => ?_
    rw [Nat.testBit_land, Nat.zero_testBit, ht, show n = 2 ^ t - 1 from by omega,
      Nat.testBit_two_pow_sub_one]
    by_cases hit : i = t
    · subst hit
      simp
    · rw [Nat.testBit_two_pow_of_ne (fun hh => hit hh.symm), Bool.and_false]

/-! ## Node-range lemmas: a node's value summarises its leaf interval -/

lemma node_range_bounds (M : ℕ) (s cur : ℕ)
    (h2 : M ≤ cur * 2 ^ s) (h3 : (cur + 1) * 2 ^ s ≤ 2 * M) (hM : 1 ≤ M) :
    1 ≤ cur ∧ cur * 2 ^ s < 2 * M ∧ cur ≤ cur * 2 ^ s := by
  have hp : 1 ≤ 2 ^ s := Nat.one_le_two_pow
  have e1 : (cur + 1) * 2 ^ s = cur * 2 ^ s + 2 ^ s := by ring
  have hle : cur ≤ cur * 2 ^ s := Nat.le_mul_of_pos_right cur (by omega)
  rcases Nat.eq_zero_or_pos cur with h0 | h1
  · subst h0
    simp at h2
    omega
  · exact ⟨h1, by omega, hle⟩

lemma node_max_iff (M k : ℕ) (hM : M = 2 ^ k) (b : ℕ → ℚ)
    (hcomb : ∀ i, 1 ≤ i → i < M → b i = max (b (2 * i)) (b (2 * i + 1))) (c : ℚ) :
    ∀ s cur, M ≤ cur * 2 ^ s → (cur + 1) * 2 ^ s ≤ 2 * M →
      (c < b cur ↔ ∃ j, cur * 2 ^ s ≤ j ∧ j < (cur + 1) * 2 ^ s ∧ c < b j) := by
  have hM1 : 1 ≤ M := by
    subst hM
    exact Nat.one_le_two_pow
  intro s
  induction s with
  | zero =>
    intro cur h2 h3
    simp only [pow_zero, mul_one] at h2 h3 ⊢
    constructor
    · intro h
      exact ⟨cur, le_refl cur, by omega, h⟩
    · rintro ⟨j, hj1, hj2, hj⟩
      rw [show j = cur from by omega] at hj
      exact hj
  | succ s ih =>
    intro cur h2 h3
    obtain ⟨h1, hlt, -⟩ := node_range_bounds M (s + 1) cur h2 h3 hM1
    have hcurM : cur < M := by
      by_contra hge
      push_neg at hge
      have hx : M * 2 ^ (s + 1) ≤ cur * 2 ^ (s + 1) :=
        Nat.mul_le_mul_right _ hge
      have hy : M * 2 ≤ M * 2 ^ (s + 1) :=
        Nat.mul_le_mul_left M (by
          have : (2 : ℕ) ^ 1 ≤ 2 ^ (s + 1) := Nat.pow_le_pow_right (by omega) (by omega)
          omega)
      omega
    have e1 : 2 * cur * 2 ^ s = cur * 2 ^ (s + 1) := by
      rw [pow_succ]
      ring
    have e2 : (2 * cur + 1) * 2 ^ s = cur * 2 ^ (s + 1) + 2 ^ s := by
      rw [pow_succ]
      ring
    have e3 : (2 * cur + 1 + 1) * 2 ^ s = (cur + 1) * 2 ^ (s + 1) := by
      rw [pow_succ]
      ring
    have e4 : (cur + 1) * 2 ^ (s + 1) = cur * 2 ^ (s + 1) + 2 ^ s + 2 ^ s := by
      rw [pow_succ]
      ring
    have f1 : M ≤ 2 * cur * 2 ^ s := by
      rw [e1]
      exact h2
    have f4 : (2 * cur + 1 + 1) * 2 ^ s ≤ 2 * M := by
      rw [e3]
      exact h3
    have f2 : (2 * cur + 1) * 2 ^ s ≤ 2 * M :=
      le_trans (Nat.mul_le_mul_right _ (by omega : 2 * cur + 1 ≤ 2 * cur + 1 + 1)) f4
    have f3 : M ≤ (2 * cur + 1) * 2 ^ s :=
      le_trans f1 (Nat.mul_le_mul_right _ (by omega : 2 * cur ≤ 2 * cur + 1))
    have hA := ih (2 * cur) f1 f2
    have hB := ih (2 * cur + 1) f3 f4
    rw [hcomb cur h1 hcurM, lt_max_iff, hA, hB]
    constructor
    · rintro (⟨j, hj1, hj2, hj⟩ | ⟨j, hj1, hj2, hj⟩)
      · exact ⟨j, by omega, by omega, hj⟩
      · exact ⟨j, by omega, by omega, hj⟩
    · rintro ⟨j, hj1, hj2, hj⟩
      by_cases hside : j < (2 * cur + 1) * 2 ^ s
      · exact Or.inl ⟨j, by omega, hside, hj⟩
      · exact Or.inr ⟨j, by omega, by omega, hj⟩

lemma node_min_iff (M k : ℕ) (hM : M = 2 ^ k) (b : ℕ → ℚ)
    (hcomb : ∀ i, 1 ≤ i → i < M → b i = min (b (2 * i)) (b (2 * i + 1))) (c : ℚ) :
    ∀ s cur, M ≤ cur * 2 ^ s → (cur + 1) * 2 ^ s ≤ 2 * M →
      (b cur < c ↔ ∃ j, cur * 2 ^ s ≤ j ∧ j < (cur + 1) * 2 ^ s ∧ b j < c) := by
  have hM1 : 1 ≤ M := by
    subst hM
    exact Nat.one_le_two_pow
  intro s
  induction s with
  | zero =>
    intro cur h2 h3
    simp only [pow_zero, mul_one] at h2 h3 ⊢
    constructor
    · intro h
      exact ⟨cur, le_refl cur, by omega, h⟩
    · rintro ⟨j, hj1, hj2, hj⟩
      rw [show j = cur from by omega] at hj
      exact hj
  | succ s ih =>
    intro cur h2 h3
    obtain ⟨h1, hlt, -⟩ := node_range_bounds M (s + 1) cur h2 h3 hM1
    have hcurM : cur < M := by
      by_contra hge
      push_neg at hge
      have hx : M * 2 ^ (s + 1) ≤ cur * 2 ^ (s + 1) :=
        Nat.mul_le_mul_right _ hge
      have hy : M * 2 ≤ M * 2 ^ (s + 1) :=
        Nat.mul_le_mul_left M (by
          have : (2 : ℕ) ^ 1 ≤ 2 ^ (s + 1) := Nat.pow_le_pow_right (by omega) (by omega)
          omega)
      omega
    have e2 : (2 * cur + 1) * 2 ^ s = cur * 2 ^ (s + 1) + 2 ^ s := by
      rw [pow_succ]
      ring
    have e3 : (2 * cur + 1 + 1) * 2 ^ s = (cur + 1) * 2 ^ (s + 1) := by
      rw [pow_succ]
      ring
    have e4 : (cur + 1) * 2 ^ (s + 1) = cur * 2 ^ (s + 1) + 2 ^ s + 2 ^ s := by
      rw [pow_succ]
      ring
    have e1 : 2 * cur * 2 ^ s = cur * 2 ^ (s + 1) := by
      rw [pow_succ]
      ring
    have f1 : M ≤ 2 * cur * 2 ^ s := by
      rw [e1]
      exact h2
    have f4 : (2 * cur + 1 + 1) * 2 ^ s ≤ 2 * M := by
      rw [e3]
      exact h3
    have f2 : (2 * cur + 1) * 2 ^ s ≤ 2 * M :=
      le_trans (Nat.mul_le_mul_right _ (by omega : 2 * cur + 1 ≤ 2 * cur + 1 + 1)) f4
    have f3 : M ≤ (2 * cur + 1) * 2 ^ s :=
      le_trans f1 (Nat.mul_le_mul_right _ (by omega : 2 * cur ≤ 2 * cur + 1))
    have hA := ih (2 * cur) f1 f2
    have hB := ih (2 * cur + 1) f3 f4
    rw [hcomb cur h1 hcurM, min_lt_iff, hA, hB]
    constructor
    · rintro (⟨j, hj1, hj2, hj⟩ | ⟨j, hj1, hj2, hj⟩)
      · exact ⟨j, by omega, by omega, hj⟩
      · exact ⟨j, by omega, by omega, hj⟩
    · rintro ⟨j, hj1, hj2, hj⟩
      by_cases hside : j < (2 * cur + 1) * 2 ^ s
      · exact Or.inl ⟨j, by omega, hside, hj⟩
      · exact Or.inr ⟨j, by omega, by omega, hj⟩

lemma crossed_node_iff (M k : ℕ) (hM : M = 2 ^ k) (hb lb : ℕ → ℚ)
    (hbc : ∀ i, 1 ≤ i → i < M → hb i = max (hb (2 * i)) (hb (2 * i + 1)))
    (lbc : ∀ i, 1 ≤ i → i < M → lb i = min (lb (2 * i)) (lb (2 * i + 1)))
    (tp sl : ℚ) (s cur : ℕ) (h2 : M ≤ cur * 2 ^ s) (h3 : (cur + 1) * 2 ^ s ≤ 2 * M) :
    crossed tp sl (hb cur) (lb cur) = true
      ↔ ∃ j, cur * 2 ^ s ≤ j ∧ j < (cur + 1) * 2 ^ s ∧ crossed tp sl (hb j) (lb j) = true := by
  have hhi := node_max_iff M k hM hb hbc (tp - epsilon) s cur h2 h3
  have hlo := node_min_iff M k hM lb lbc (sl + epsilon) s cur h2 h3
  simp only [crossed, Bool.or_eq_true, decide_eq_true_eq]
  rw [hhi, hlo]
  constructor
  · rintro (⟨j, hj1, hj2, hj⟩ | ⟨j, hj1, hj2, hj⟩)
    · exact ⟨j, hj1, hj2, Or.inl hj⟩
    · exact ⟨j, hj1, hj2, Or.inr hj⟩
  · rintro ⟨j, hj1, hj2, hj | hj⟩
    · exact Or.inl ⟨j, hj1, hj2, hj⟩
    · exact Or.inr ⟨j, hj1, hj2, hj⟩

/-! ## Arithmetic helpers for the ascend walk -/

lemma range_step (k s n : ℕ) (h2 : (n + 1) * 2 ^ s ≤ 2 ^ (k + 1)) (hnp : ∀ t, n + 1 ≠ 2 ^ t) :
    (n + 2) * 2 ^ s ≤ 2 ^ (k + 1) := by
  have hs : s ≤ k + 1 := by
    by_contra hgt
    push_neg at hgt
    have hp : 2 ^ (k + 1) < 2 ^ s := (Nat.pow_lt_pow_iff_right (by omega)).mpr hgt
    have h1 : 2 ^ s ≤ (n + 1) * 2 ^ s := Nat.le_mul_of_pos_left _ (by omega)
    omega
  have hd : 2 ^ (k + 1) = 2 ^ (k + 1 - s) * 2 ^ s := by
    rw [← pow_add]
    congr 1
    omega
  rw [hd] at h2 ⊢
  have hle : n + 1 ≤ 2 ^ (k + 1 - s) :=
    Nat.le_of_mul_le_mul_right h2 (Nat.pos_pow_of_pos s (by omega))
  have hne : n + 1 ≠ 2 ^ (k + 1 - s) := hnp _
  exact Nat.mul_le_mul_right _ (by omega)

lemma range_boundary (k s n t : ℕ) (h1 : 2 ^ k < (n + 1) * 2 ^ s)
    (h2 : (n + 1) * 2 ^ s ≤ 2 ^ (k + 1)) (ht : n + 1 = 2 ^ t) :
    (n + 1) * 2 ^ s = 2 ^ (k + 1) := by
  rw [ht, ← pow_add] at h1 h2 ⊢
  have hlo : k < t + s := (Nat.pow_lt_pow_iff_right (by omega)).mp h1
  have hhi : t + s ≤ k + 1 := (Nat.pow_le_pow_iff_right (by omega)).mp h2
  congr 1
  omega

/-! ## Correctness of the ascend phase -/

lemma ascendLoop_correct (M k : ℕ) (hM : M = 2 ^ k) (hb lb : ℕ → ℚ)
    (hbc : ∀ i, 1 ≤ i → i < M → hb i = max (hb (2 * i)) (hb (2 * i + 1)))
    (lbc : ∀ i, 1 ≤ i → i < M → lb i = min (lb (2 * i)) (lb (2 * i + 1)))
    (tp sl : ℚ) (e : ℕ) :
    ∀ fuel s cur,
      e + M + 1 ≤ cur * 2 ^ s →
      (cur + 1) * 2 ^ s ≤ 2 * M →
      (∀ j, e + M + 1 ≤ j → j < cur * 2 ^ s → ¬ crossed tp sl (hb j) (lb j) = true) →
      2 * (2 * M - cur * 2 ^ s) + cur < fuel →
      ((∀ j, e + M + 1 ≤ j → j < 2 * M → ¬ crossed tp sl (hb j) (lb j) = true)
          ∧ ascendLoop hb lb (2 * M) tp sl fuel cur = some (Sum.inl M))
      ∨ (∃ bn s', ascendLoop hb lb (2 * M) tp sl fuel cur = some (Sum.inr bn)
          ∧ e + M + 1 ≤ bn * 2 ^ s' ∧ (bn + 1) * 2 ^ s' ≤ 2 * M
          ∧ (∀ j, e + M + 1 ≤ j → j < bn * 2 ^ s' → ¬ crossed tp sl (hb j) (lb j) = true)
          ∧ (∃ j, bn * 2 ^ s' ≤ j ∧ j < (bn + 1) * 2 ^ s' ∧ crossed tp sl (hb j) (lb j) = true)) := by
  have hM1 : 1 ≤ M := by
    rw [hM]
    exact Nat.one_le_two_pow
  intro fuel
  induction fuel with
  | zero =>
    intro s cur h2 h3 hclean hfuel
    exact absurd hfuel (by omega)
  | succ fuel ih =>
    intro s cur h2 h3 hclean hfuel
    have e1 : (cur + 1) * 2 ^ s = cur * 2 ^ s + 2 ^ s := by ring
    have hp : 1 ≤ 2 ^ s := Nat.one_le_two_pow
    obtain ⟨hcur1, hlt, hle⟩ := node_range_bounds M s cur (by omega) h3 hM1
    simp only [ascendLoop]
    rw [if_neg (show ¬ (2 * M ≤ cur) from by omega)]
    by_cases hcross : crossed tp sl (hb cur) (lb cur) = true
    · rw [if_pos hcross]
      right
      refine ⟨cur, s, rfl, h2, h3, hclean, ?_⟩
      exact (crossed_node_iff M k hM hb lb hbc lbc tp sl s cur (by omega) h3).mp hcross
    · rw [if_neg hcross]
      have hnode := crossed_node_iff M k hM hb lb hbc lbc tp sl s cur (by omega) h3
      have hcleanext : ∀ j, e + M + 1 ≤ j → j < (cur + 1) * 2 ^ s →
          ¬ crossed tp sl (hb j) (lb j) = true := by
        intro j hj1 hj2
        by_cases hj3 : j < cur * 2 ^ s
        · exact hclean j hj1 hj3
        · intro hc
          exact hcross (hnode.mpr ⟨j, by omega, hj2, hc⟩)
      have h2M : 2 * M = 2 ^ (k + 1) := by
        rw [hM, pow_succ]
        ring
      by_cases hbd : cur &&& (cur + 1) = 0
      · rw [if_pos hbd]
        rw [show (2 * M) >>> 1 = M from by rw [Nat.shiftRight_eq_div_pow]; omega]
        left
        obtain ⟨t, ht⟩ := (land_succ_self_eq_zero_iff cur).mp hbd
        have hMk : (2 : ℕ) ^ k = M := hM.symm
        have hfull : (cur + 1) * 2 ^ s = 2 ^ (k + 1) := by
          refine range_boundary k s cur t ?_ ?_ ht
          · omega
          · omega
        refine ⟨?_, rfl⟩
        intro j hj1 hj2
        exact hcleanext j hj1 (by omega)
      · rw [if_neg hbd]
        have hnotpow : ∀ t, cur + 1 ≠ 2 ^ t := by
          intro t hcon
          exact hbd ((land_succ_self_eq_zero_iff cur).mpr ⟨t, hcon⟩)
        have hstep : (cur + 1 + 1) * 2 ^ s ≤ 2 * M := by
          rw [h2M] at h3 ⊢
          exact range_step k s cur h3 hnotpow
        by_cases hodd : cur &&& 1 = 1
        · rw [if_pos hodd]
          refine ih s (cur + 1) (by omega) hstep ?_ ?_
          · intro j hj1 hj2
            exact hcleanext j hj1 hj2
          · omega
        · rw [if_neg hodd]
          have hand := Nat.and_one_is_mod cur
          obtain ⟨m, hm⟩ : ∃ m, cur = 2 * m := ⟨cur / 2, by omega⟩
          have hshift : cur >>> 1 = m := by
            rw [Nat.shiftRight_eq_div_pow]
            omega
          rw [hshift]
          have em : m * 2 ^ (s + 1) = cur * 2 ^ s := by
            rw [pow_succ, hm]
            ring
          have em1 : (m + 1) * 2 ^ (s + 1) = (cur + 1 + 1) * 2 ^ s := by
            rw [pow_succ, hm]
            ring
          refine ih (s + 1) m (by omega) (by omega) ?_ ?_
          · intro j hj1 hj2
            exact hclean j hj1 (by omega)
          · omega

/-! ## Correctness of the descend phase -/

lemma descendLoop_correct (M k : ℕ) (hM : M = 2 ^ k) (hb lb : ℕ → ℚ)
    (hbc : ∀ i, 1 ≤ i → i < M → hb i = max (hb (2 * i)) (hb (2 * i + 1)))
    (lbc : ∀ i, 1 ≤ i → i < M → lb i = min (lb (2 * i)) (lb (2 * i + 1)))
    (tp sl : ℚ) :
    ∀ s cur j0 fuel,
      M + 1 ≤ cur * 2 ^ s →
      (cur + 1) * 2 ^ s ≤ 2 * M →
      cur * 2 ^ s ≤ j0 →
      j0 < (cur + 1) * 2 ^ s →
      crossed tp sl (hb j0) (lb j0) = true →
      (∀ j, cur * 2 ^ s ≤ j → j < j0 → ¬ crossed tp sl (hb j) (lb j) = true) →
      s < fuel →
      descendLoop hb lb (2 * M) tp sl M fuel cur = some (j0 - M) := by
  have hM1 : 1 ≤ M := by
    rw [hM]
    exact Nat.one_le_two_pow
  intro s
  induction s with
  | zero =>
    intro cur j0 fuel h2 h3 hj1 hj2 hc hcl hfuel
    simp only [pow_zero, mul_one] at h2 h3 hj1 hj2
    cases fuel with
    | zero => omega
    | succ fuel =>
      simp only [descendLoop]
      rw [if_pos (show M < cur from by omega)]
      rw [show j0 = cur from by omega]
  | succ s ih =>
    intro cur j0 fuel h2 h3 hj1 hj2 hc hcl hfuel
    have hp : 1 ≤ 2 ^ s := Nat.one_le_two_pow
    obtain ⟨hcur1, hlt, hle⟩ := node_range_bounds M (s + 1) cur (by omega) h3 hM1
    have hcurM : cur < M := by
      by_contra hge
      push_neg at hge
      have hx : M * 2 ^ (s + 1) ≤ cur * 2 ^ (s + 1) :=
        Nat.mul_le_mul_right _ hge
      have hy : M * 2 ≤ M * 2 ^ (s + 1) :=
        Nat.mul_le_mul_left M (by
          have : (2 : ℕ) ^ 1 ≤ 2 ^ (s + 1) := Nat.pow_le_pow_right (by omega) (by omega)
          omega)
      omega
    cases fuel with
    | zero => omega
    | succ fuel =>
      simp only [descendLoop]
      rw [if_neg (show ¬ M < cur from by omega)]
      have hsl : cur <<< 1 = 2 * cur := by
        rw [Nat.shiftLeft_eq]
        omega
      rw [hsl]
      rw [if_neg (show ¬ 2 * M ≤ 2 * cur from by omega)]
      have e1 : 2 * cur * 2 ^ s = cur * 2 ^ (s + 1) := by
        rw [pow_succ]
        ring
      have e2 : (2 * cur + 1) * 2 ^ s = cur * 2 ^ (s + 1) + 2 ^ s := by
        rw [pow_succ]
        ring
      have e3 : (2 * cur + 1 + 1) * 2 ^ s = (cur + 1) * 2 ^ (s + 1) := by
        rw [pow_succ]
        ring
      have f1 : M ≤ 2 * cur * 2 ^ s := by
        rw [e1]
        omega
      have f4 : (2 * cur + 1 + 1) * 2 ^ s ≤ 2 * M := by
        rw [e3]
        exact h3
      have f2 : (2 * cur + 1) * 2 ^ s ≤ 2 * M :=
        le_trans (Nat.mul_le_mul_right _ (by omega : 2 * cur + 1 ≤ 2 * cur + 1 + 1)) f4
      have hnodeL := crossed_node_iff M k hM hb lb hbc lbc tp sl s (2 * cur) f1 f2
      by_cases hleft : j0 < (2 * cur + 1) * 2 ^ s
      · have hcl2 : crossed tp sl (hb (2 * cur)) (lb (2 * cur)) = true :=
          hnodeL.mpr ⟨j0, by omega, hleft, hc⟩
        rw [if_pos hcl2]
        refine ih (2 * cur) j0 fuel (by omega) f2 (by omega) hleft hc ?_ (by omega)
        intro j hja hjb
        exact hcl j (by omega) hjb
      · have hncl : ¬ crossed tp sl (hb (2 * cur)) (lb (2 * cur)) = true := by
          intro hcc
          obtain ⟨j', hj'1, hj'2, hj'c⟩ := hnodeL.mp hcc
          exact hcl j' (by omega) (by omega) hj'c
        rw [if_neg hncl]
        refine ih (2 * cur + 1) j0 fuel (by omega) f4 (by omega) (by omega) hc ?_ (by omega)
        intro j hja hjb
        exact hcl j (by omega) hjb

/-! ## Characterisation of the brute-force linear forward scan -/

lemma linearScanFrom_all_clean (high_log low_log : ℕ → ℚ) (tp sl : ℚ) (M : ℕ) :
    ∀ d j, M ≤ j + d →
      (∀ j', j ≤ j' → j' < M → ¬ crossed tp sl (high_log j') (low_log j') = true) →
      linearScanFrom high_log low_log tp sl M j = M := by
  intro d
  induction d with
  | zero =>
    intro j hd hcl
    unfold linearScanFrom
    rw [dif_neg (by omega)]
  | succ d ih =>
    intro j hd hcl
    unfold linearScanFrom
    by_cases hj : j < M
    · rw [dif_pos hj, if_neg (hcl j le_rfl hj)]
      exact ih (j + 1) (by omega) (fun j' h1 h2 => hcl j' (by omega) h2)
    · rw [dif_neg hj]

lemma linearScanFrom_finds (high_log low_log : ℕ → ℚ) (tp sl : ℚ) (M : ℕ) :
    ∀ d j j0, M ≤ j + d → j ≤ j0 → j0 < M →
      crossed tp sl (high_log j0) (low_log j0) = true →
      (∀ j', j ≤ j' → j' < j0 → ¬ crossed tp sl (high_log j') (low_log j') = true) →
      linearScanFrom high_log low_log tp sl M j = j0 := by
  intro d
  induction d with
  | zero =>
    intro j j0 hd h1 h2 hc hcl
    omega
  | succ d ih =>
    intro j j0 hd h1 h2 hc hcl
    unfold linearScanFrom
    rw [dif_pos (by omega : j < M)]
    by_cases hcj : crossed tp sl (high_log j) (low_log j) = true
    · rw [if_pos hcj]
      by_contra hne
      exact (hcl j le_rfl (by omega)) hcj
    · rw [if_neg hcj]
      have hne : j ≠ j0 := fun hh => hcj (hh ▸ hc)
      exact ih (j + 1) j0 (by omega) (by omega) h2 hc (fun j' ha hb => hcl j' (by omega) hb)

lemma linearScanFrom_le_cross (high_log low_log : ℕ → ℚ) (tp sl : ℚ) (M : ℕ) :
    ∀ d j j1, M ≤ j + d → j ≤ j1 → j1 < M →
      crossed tp sl (high_log j1) (low_log j1) = true →
      linearScanFrom high_log low_log tp sl M j ≤ j1 := by
  intro d
  induction d with
  | zero =>
    intro j j1 hd h1 h2 hc
    omega
  | succ d ih =>
    intro j j1 hd h1 h2 hc
    unfold linearScanFrom
    rw [dif_pos (by omega : j < M)]
    by_cases hcj : crossed tp sl (high_log j) (low_log j) = true
    · rw [if_pos hcj]
      exact h1
    · rw [if_neg hcj]
      have hne : j ≠ j1 := fun hh => hcj (hh ▸ hc)
      exact ih (j + 1) j1 (by omega) (by omega) h2 hc

/-! ## The scan equals the brute-force linear scan -/

lemma buildBT_comb (comb : ℚ → ℚ → ℚ) (M k : ℕ) (leaf : ℕ → ℚ) (hM : M = 2 ^ k) :
    ∀ i, 1 ≤ i → i < M →
      buildBT comb M leaf i = comb (buildBT comb M leaf (2 * i)) (buildBT comb M leaf (2 * i + 1)) := by
  intro i h1 h2
  rw [buildBT_eq_btVal comb M k leaf hM i h1 (by omega),
    buildBT_eq_btVal comb M k leaf hM (2 * i) (by omega) (by omega),
    buildBT_eq_btVal comb M k leaf hM (2 * i + 1) (by omega) (by omega)]
  exact btVal_node comb M leaf i h1 h2

lemma buildBT_on_leaf (comb : ℚ → ℚ → ℚ) (M k : ℕ) (leaf : ℕ → ℚ) (hM : M = 2 ^ k) :
    ∀ i, M ≤ i → i < 2 * M → buildBT comb M leaf i = leaf (i - M) := by
  intro i h1 h2
  have hM1 : 1 ≤ M := by
    rw [hM]
    exact Nat.one_le_two_pow
  rw [buildBT_eq_btVal comb M k leaf hM i (by omega) h2]
  exact btVal_leaf comb M leaf i h1

lemma scan_eq_linear (M k : ℕ) (hM : M = 2 ^ k) (close_log high_log low_log : ℕ → ℚ)
    (tp_log sl_log : ℚ) (e : ℕ) (he : e + M + 2 ≤ 2 * M) :
    calculate_single_exit_index_log close_log (buildBT (fun a b => max a b) M high_log)
        (buildBT (fun a b => min a b) M low_log) (2 * M) tp_log sl_log e
      = some (linearExitIndex high_log low_log (close_log e + tp_log) (close_log e + sl_log) e M) := by
  have hM1 : 1 ≤ M := by
    rw [hM]
    exact Nat.one_le_two_pow
  set hb := buildBT (fun a b => max a b) M high_log with hhb
  set lb := buildBT (fun a b => min a b) M low_log with hlb
  have hbc : ∀ i, 1 ≤ i → i < M → hb i = max (hb (2 * i)) (hb (2 * i + 1)) :=
    buildBT_comb _ M k high_log hM
  have lbc : ∀ i, 1 ≤ i → i < M → lb i = min (lb (2 * i)) (lb (2 * i + 1)) :=
    buildBT_comb _ M k low_log hM
  have hbl : ∀ i, M ≤ i → i < 2 * M → hb i = high_log (i - M) :=
    buildBT_on_leaf _ M k high_log hM
  have lbl : ∀ i, M ≤ i → i < 2 * M → lb i = low_log (i - M) :=
    buildBT_on_leaf _ M k low_log hM
  set tp := close_log e + tp_log with htp
  set sl := close_log e + sl_log with hsl
  simp only [calculate_single_exit_index_log]
  rw [show (2 * M) >>> 1 = M from by rw [Nat.shiftRight_eq_div_pow]; omega]
  have hasc := ascendLoop_correct M k hM hb lb hbc lbc tp sl e (ascendFuel (2 * M)) 0 (e + M + 1)
    (by simp only [pow_zero, mul_one]; omega)
    (by simp only [pow_zero, mul_one]; omega)
    (by
      intro j hj1 hj2
      simp only [pow_zero, mul_one] at hj2
      omega)
    (by
      simp only [pow_zero, mul_one, ascendFuel]
      have haux : 2 * M ≤ 2 * M * (2 * M) := Nat.le_mul_of_pos_right _ (by omega)
      omega)
  rcases hasc with ⟨hcleanall, heq⟩ | ⟨bn, s', heq, hlo, hhi, hpre, jex, hjex1, hjex2, hjexc⟩
  · rw [heq, Option.some_bind]
    simp only [finishScan]
    have hlin : linearExitIndex high_log low_log tp sl e M = M := by
      unfold linearExitIndex
      refine linearScanFrom_all_clean high_log low_log tp sl M M (e + 1) (by omega) ?_
      intro j' hj'1 hj'2
      have := hcleanall (j' + M) (by omega) (by omega)
      rw [hbl (j' + M) (by omega) (by omega), lbl (j' + M) (by omega) (by omega),
        show j' + M - M = j' from by omega] at this
      exact this
    rw [hlin]
  · rw [heq, Option.some_bind]
    simp only [finishScan]
    have hP : ∃ j, bn * 2 ^ s' ≤ j ∧ j < (bn + 1) * 2 ^ s' ∧ crossed tp sl (hb j) (lb j) = true :=
      ⟨jex, hjex1, hjex2, hjexc⟩
    set j0 := Nat.find hP with hj0
    obtain ⟨hj01, hj02, hj0c⟩ := Nat.find_spec hP
    have hj0min : ∀ j, bn * 2 ^ s' ≤ j → j < j0 → ¬ crossed tp sl (hb j) (lb j) = true := by
      intro j hja hjb hc
      exact Nat.find_min hP hjb ⟨hja, by omega, hc⟩
    have hdes := descendLoop_correct M k hM hb lb hbc lbc tp sl s' bn j0 (descendFuel (2 * M))
      (by omega) hhi hj01 hj02 hj0c hj0min ?_
    · rw [hdes]
      have hj0M : M + 1 ≤ j0 := by omega
      have hj0hi : j0 < 2 * M := by omega
      have hlin : linearExitIndex high_log low_log tp sl e M = j0 - M := by
        unfold linearExitIndex
        refine linearScanFrom_finds high_log low_log tp sl M M (e + 1) (j0 - M)
          (by omega) (by omega) (by omega) ?_ ?_
        · rw [show j0 - M = j0 - M from rfl]
          have h1 := hbl j0 (by omega) hj0hi
          have h2 := lbl j0 (by omega) hj0hi
          rw [← h1, ← h2]
          exact hj0c
        · intro j' hj'1 hj'2
          have hbuf : e + M + 1 ≤ j' + M := by omega
          have hlt2M : j' + M < 2 * M := by omega
          have htrans : ¬ crossed tp sl (hb (j' + M)) (lb (j' + M)) = true := by
            by_cases hcase : j' + M < bn * 2 ^ s'
            · exact hpre (j' + M) hbuf hcase
            · exact hj0min (j' + M) (by omega) (by omega)
          rw [hbl (j' + M) (by omega) hlt2M, lbl (j' + M) (by omega) hlt2M,
            show j' + M - M = j' from by omega] at htrans
          exact htrans
      rw [hlin]
    · have hs' : 2 ^ s' ≤ 2 * M := by
        have h1 : 2 ^ s' ≤ (bn + 1) * 2 ^ s' := Nat.le_mul_of_pos_left _ (by omega)
        omega
      have hsk : s' ≤ k + 1 := by
        have h2M : 2 * M = 2 ^ (k + 1) := by
          rw [hM, pow_succ]
          ring
        rw [h2M] at hs'
        exact (Nat.pow_le_pow_iff_right (by omega)).mp hs'
      have hk2 : k + 1 < 2 ^ (k + 1) := Nat.lt_two_pow (k + 1)
      have h2M : 2 * M = 2 ^ (k + 1) := by
        rw [hM, pow_succ]
        ring
      simp only [descendFuel]
      omega

/-! ## Claims C1, C3, C6, C8, C10: the barrier-scan engine -/

/-- C1 counterexample: at `N = M = 1` (length already a power of two) with the entry
`e = 0 = N - 1`, the scan's very first access is at index `e + M + 1 = 2 = 2M`,
outside the size-`2M` tree buffers: it aborts (`none`) instead of producing the
brute-force answer, so the claimed equality fails at this input. -/
theorem C1_counterexample :
    ¬ ∃ r, calculate_single_exit_index_log (fun _ => (0 : ℚ))
        (buildBT (fun a b => max a b) 1 (fun _ => 0)) (buildBT (fun a b => min a b) 1 (fun _ => 0))
        (2 * 1) 0 0 0 = some r
      ∧ min r (1 - 1)
        = min (linearExitIndex (fun _ => (0 : ℚ)) (fun _ => 0) 0 0 0 1) (1 - 1) := by
  rintro ⟨r, hr, -⟩
  have hnone : calculate_single_exit_index_log (fun _ => (0 : ℚ))
      (buildBT (fun a b => max a b) 1 (fun _ => 0)) (buildBT (fun a b => min a b) 1 (fun _ => 0))
      (2 * 1) 0 0 0 = none := rfl
  rw [hnone] at hr
  exact Option.noConfusion hr

/-- C1 amended: for every padded power-of-two length `M`, entry `e` with
`e + M + 2 ≤ 2M` (equivalently `e < M - 1`; automatic whenever `N < M`, and
excluding only the out-of-bounds case `e = N - 1 = M - 1`), and arbitrary log
thresholds, the exit index of the tree-based ascend/descend scan, clamped to
`N - 1`, equals the clamped exit index of the brute-force linear forward scan
from `e` (smallest `j > e` crossing a barrier, sentinel `M` when none does). -/
theorem C1_tree_scan_equals_linear_scan (M k N : ℕ) (hM : M = 2 ^ k)
    (close_log high_log low_log : ℕ → ℚ) (tp_log sl_log : ℚ) (e : ℕ)
    (he : e + M + 2 ≤ 2 * M) (heN : e < N) (hNM : N ≤ M) :
    ∃ r, calculate_single_exit_index_log close_log (buildBT (fun a b => max a b) M high_log)
          (buildBT (fun a b => min a b) M low_log) (2 * M) tp_log sl_log e = some r
      ∧ min r (N - 1)
        = min (linearExitIndex high_log low_log (close_log e + tp_log) (close_log e + sl_log) e M)
            (N - 1) :=
  ⟨_, scan_eq_linear M k hM close_log high_log low_log tp_log sl_log e he, rfl⟩

/-- Witness for the amended C1 at `M = N = 2`, `e = 0`, constant arrays. -/
theorem C1_tree_scan_equals_linear_scan_witness :
    ∃ r, calculate_single_exit_index_log (fun _ => (0 : ℚ))
          (buildBT (fun a b => max a b) 2 (fun _ => 0)) (buildBT (fun a b => min a b) 2 (fun _ => 0))
          (2 * 2) 0 0 0 = some r
      ∧ min r (2 - 1)
        = min (linearExitIndex (fun _ => (0 : ℚ)) (fun _ => 0)
            ((fun _ => (0 : ℚ)) 0 + 0) ((fun _ => (0 : ℚ)) 0 + 0) 0 2) (2 - 1) :=
  C1_tree_scan_equals_linear_scan 2 1 2 (by decide) (fun _ => (0 : ℚ)) (fun _ => 0) (fun _ => 0)
    0 0 0 (by decide) (by decide) (by decide)

/-- C3 (code bug): at `N = M = 4` with the entry `e = 3 = N - 1` (`entries[3]` true),
the initial read of the scan is at index `e + M + 1 = 8 = 2M`, outside `[0, 2M)`:
the modelled scan aborts with `none` (under `numba.njit` this is an unchecked read
of memory past the buffer, contradicting the code's own comment that the
right-edge test prevents going out of bounds). -/
theorem C3_out_of_bounds_at_last_entry :
    calculate_single_exit_index_log (fun _ => (0 : ℚ))
      (buildBT (fun a b => max a b) 4 (fun _ => 0)) (buildBT (fun a b => min a b) 4 (fun _ => 0))
      (2 * 4) 0 0 3 = none := rfl

/-- C6 counterexample: at `N = M = 2`, `e = 1`, the premise "no `j` with
`e < j < M` crosses" holds vacuously, yet the scan does not return the sentinel
`M = 2` — it aborts on the out-of-bounds initial read at `e + M + 1 = 4 = 2M`, and
the per-entry log-return is likewise not produced. -/
theorem C6_counterexample :
    calculate_single_exit_index_log (fun _ => (0 : ℚ))
        (buildBT (fun a b => max a b) 2 (fun _ => 0)) (buildBT (fun a b => min a b) 2 (fun _ => 0))
        (2 * 2) 0 0 1 ≠ some 2
      ∧ exitLogReturnEntry (fun _ => (0 : ℚ)) (fun _ => 0) (fun _ => 0) 2 2 0 0 1 = none := by
  constructor
  · intro h
    have hnone : calculate_single_exit_index_log (fun _ => (0 : ℚ))
        (buildBT (fun a b => max a b) 2 (fun _ => 0)) (buildBT (fun a b => min a b) 2 (fun _ => 0))
        (2 * 2) 0 0 1 = none := rfl
    rw [hnone] at h
    exact Option.noConfusion h
  · rfl

/-- C6 amended: for entries with `e + M + 2 ≤ 2M`, if no index `e < j < M` satisfies
the crossing condition, the scan deterministically returns the midpoint sentinel
`M = len(tree_buffer)/2`, and after the clamp to `N - 1` the reported log-return
equals `close_log[N-1] - close_log[e]`. -/
theorem C6_no_exit_sentinel (M k N : ℕ) (hM : M = 2 ^ k)
    (close_log high_log low_log : ℕ → ℚ) (tp_log sl_log : ℚ) (e : ℕ)
    (he : e + M + 2 ≤ 2 * M) (heN : e < N) (hNM : N ≤ M)
    (hnc : ∀ j, e < j → j < M →
      ¬ crossed (close_log e + tp_log) (close_log e + sl_log) (high_log j) (low_log j) = true) :
    calculate_single_exit_index_log close_log (buildBT (fun a b => max a b) M high_log)
        (buildBT (fun a b => min a b) M low_log) (2 * M) tp_log sl_log e = some M
      ∧ exitLogReturnEntry close_log high_log low_log M N tp_log sl_log e
        = some (close_log (N - 1) - close_log e) := by
  have hlin : linearExitIndex high_log low_log (close_log e + tp_log) (close_log e + sl_log) e M
      = M :=
    linearScanFrom_all_clean _ _ _ _ M M (e + 1) (by omega)
      (fun j' h1 h2 => hnc j' (by omega) h2)
  have hscan := scan_eq_linear M k hM close_log high_log low_log tp_log sl_log e he
  rw [hlin] at hscan
  refine ⟨hscan, ?_⟩
  unfold exitLogReturnEntry
  rw [hscan]
  simp only [Option.map_some']
  rw [show min M (N - 1) = N - 1 from by omega]

/-- Witness for the amended C6 at `M = N = 2`, `e = 0`, flat prices with wide
barriers (no crossing anywhere). -/
theorem C6_no_exit_sentinel_witness :
    calculate_single_exit_index_log (fun _ => (0 : ℚ))
        (buildBT (fun a b => max a b) 2 (fun _ => 0)) (buildBT (fun a b => min a b) 2 (fun _ => 0))
        (2 * 2) 1 (-1) 0 = some 2
      ∧ exitLogReturnEntry (fun _ => (0 : ℚ)) (fun _ => 0) (fun _ => 0) 2 2 1 (-1) 0
        = some ((fun _ => (0 : ℚ)) (2 - 1) - (fun _ => (0 : ℚ)) 0) :=
  C6_no_exit_sentinel 2 1 2 (by decide) (fun _ => (0 : ℚ)) (fun _ => 0) (fun _ => 0) 1 (-1) 0
    (by decide) (by decide) (by decide)
    (fun j h1 h2 => by
      rw [show j = 1 from by omega]
      norm_num [crossed, epsilon])

/-- C8: a future bar `e < j < M` whose log-high exactly equals the take-profit
threshold `tp = close_log e + tp_log` satisfies the detection condition
`high > tp - epsilon` (the epsilon rounds toward trigger), and the scan exits at or
before `j`; symmetrically for a log-low equal to the stop-loss threshold. -/
theorem C8_exact_touch_detected (M k : ℕ) (hM : M = 2 ^ k)
    (close_log high_log low_log : ℕ → ℚ) (tp_log sl_log : ℚ) (e j : ℕ)
    (hej : e < j) (hjM : j < M)
    (htouch : high_log j = close_log e + tp_log ∨ low_log j = close_log e + sl_log) :
    crossed (close_log e + tp_log) (close_log e + sl_log) (high_log j) (low_log j) = true
      ∧ ∃ r, calculate_single_exit_index_log close_log
          (buildBT (fun a b => max a b) M high_log) (buildBT (fun a b => min a b) M low_log)
          (2 * M) tp_log sl_log e = some r ∧ r ≤ j := by
  have heps : (0 : ℚ) < epsilon := by
    unfold epsilon
    norm_num
  have hcr : crossed (close_log e + tp_log) (close_log e + sl_log)
      (high_log j) (low_log j) = true := by
    simp only [crossed, Bool.or_eq_true, decide_eq_true_eq]
    rcases htouch with h | h
    · left
      rw [h]
      linarith
    · right
      rw [h]
      linarith
  have he : e + M + 2 ≤ 2 * M := by omega
  refine ⟨hcr, _, scan_eq_linear M k hM close_log high_log low_log tp_log sl_log e he, ?_⟩
  exact linearScanFrom_le_cross high_log low_log _ _ M M (e + 1) j (by omega) (by omega) hjM hcr

/-- Witness for C8 at `M = 2`, `e = 0`, `j = 1`, with `high_log 1` exactly equal to
the take-profit threshold `0 + 5`. -/
theorem C8_exact_touch_detected_witness :
    crossed ((fun _ => (0 : ℚ)) 0 + 5) ((fun _ => (0 : ℚ)) 0 + (-10))
        ((fun _ => (5 : ℚ)) 1) ((fun _ => (0 : ℚ)) 1) = true
      ∧ ∃ r, calculate_single_exit_index_log (fun _ => (0 : ℚ))
          (buildBT (fun a b => max a b) 2 (fun _ => (5 : ℚ)))
          (buildBT (fun a b => min a b) 2 (fun _ => (0 : ℚ)))
          (2 * 2) 5 (-10) 0 = some r ∧ r ≤ 1 :=
  C8_exact_touch_detected 2 1 (by decide) (fun _ => (0 : ℚ)) (fun _ => (5 : ℚ)) (fun _ => (0 : ℚ))
    5 (-10) 0 1 (by decide) (by decide) (Or.inl (by norm_num))

/-- C10: for every entry index with `e + M + 1 < 2M`, the scan is total: the ascend
loop reaches a crossing node or the right edge and the descend loop reaches a leaf,
all within the provided (proved sufficient) fuel, so the function returns an index. -/
theorem C10_scan_terminates (M k : ℕ) (hM : M = 2 ^ k)
    (close_log high_log low_log : ℕ → ℚ) (tp_log sl_log : ℚ) (e : ℕ)
    (he : e + M + 1 < 2 * M) :
    ∃ r, calculate_single_exit_index_log close_log (buildBT (fun a b => max a b) M high_log)
        (buildBT (fun a b => min a b) M low_log) (2 * M) tp_log sl_log e = some r :=
  ⟨_, scan_eq_linear M k hM close_log high_log low_log tp_log sl_log e (by omega)⟩

/-- Witness for C10 at `M = 4`, `e = 1`, concrete arrays. -/
theorem C10_scan_terminates_witness :
    ∃ r, calculate_single_exit_index_log (fun _ => (1 : ℚ))
        (buildBT (fun a b => max a b) 4 (fun _ => 2)) (buildBT (fun a b => min a b) 4 (fun _ => 0))
        (2 * 4) 0 0 1 = some r :=
  C10_scan_terminates 4 2 (by decide) (fun _ => (1 : ℚ)) (fun _ => 2) (fun _ => 0) 0 0 1 (by decide)

end Horcrux
